import Mathlib

/-!
Verification of the civitai-manager file-layout core of the Ebox repository.

The definitions below are a shallow embedding of
`src/apps/civitai-manager/src/modules/civitai/file-layout.ts` and of the
image-identifier recovery in `src/apps/civitai-manager/src/db/crud/modelVersion.ts`.

Embedding conventions:
* JavaScript numbers used as entity identifiers are embedded as `Nat`
  (identifiers are positive integers per the data model); values produced by
  the JavaScript `Number()` conversion are embedded exactly as rationals
  (`JsNum` below), with `NaN` and the infinities as separate constructors.
* `node:path`'s `join` is embedded as `joinPath` (separator interposition).
  All segments produced by the layout builder are non-empty, free of path
  separators and are never `.` or `..` (numeric ids, model-type tags, and
  sanitized basenames), so `join`'s normalization step is the identity on them
  and plain interposition is faithful.
* The external `sanitize-basename` dependency is not part of the repository;
  the builder is therefore parameterized by the sanitizing function, and the
  theorems that need it assume only that its output contains no separator
  (which is that library's documented purpose).
* The filesystem is embedded as explicit state: a directory is a pair of an
  existence flag and a read result (so that `readdir` failures are
  representable), and existence checks are a `String → Bool` map, matching the
  `path-exists` package contract that a failed stat yields `false` rather than
  an exception.
-/

namespace Ebox

/-- ASCII character for the decimal digit `d`; every use site has `d < 10`. -/
def decDigitChar (d : Nat) : Char :=
  match d with
  | 0 => '0'
  | 1 => '1'
  | 2 => '2'
  | 3 => '3'
  | 4 => '4'
  | 5 => '5'
  | 6 => '6'
  | 7 => '7'
  | 8 => '8'
  | 9 => '9'
  | _ => '0'

/-- Numeric value of a decimal digit character (inverse of `decDigitChar`). -/
def decDigitVal (c : Char) : Nat := c.toNat - 48

/-- Little-endian decimal digits of `n`, with explicit structural fuel so that
the function reduces by kernel computation. -/
def decDigitsAux : Nat → Nat → List Nat
  | 0, _ => []
  | fuel + 1, n => if n = 0 then [] else n % 10 :: decDigitsAux fuel (n / 10)

/-- Little-endian decimal digits of `n` (`[]` for `0`). -/
def decDigits (n : Nat) : List Nat := decDigitsAux n n

/-- Decimal string representation of a natural number, as produced by
JavaScript `toString()` on the nonnegative integers used as identifiers. -/
def natRepr (n : Nat) : String :=
  if n = 0 then "0" else ⟨((decDigits n).map decDigitChar).reverse⟩

/-- Embedding of `node:path`'s `join` for the separator-free, dot-free
segments produced by the layout builder. -/
def joinPath (a b : String) : String := a ++ "/" ++ b

/-- `getApiInfoJsonFileName` (file-layout.ts line 50). -/
def getApiInfoJsonFileName (id : Nat) : String := natRepr id ++ ".api-info.json"

/-- Embedding of the `ModelFile` entity (the fields used by the layout). -/
structure ModelFile where
  id : Nat
  sizeKB : Nat
  name : String
  type : String
  downloadUrl : String
deriving Repr, DecidableEq

/-- `FileLayoutBuilder.getModelPath` (file-layout.ts line 81). -/
def getModelPath (basePath modelType : String) (modelId : Nat) : String :=
  joinPath (joinPath basePath modelType) (natRepr modelId)

/-- `FileLayoutBuilder.getVersionPath` (file-layout.ts line 88). -/
def getVersionPath (basePath modelType : String) (modelId versionId : Nat) : String :=
  joinPath (getModelPath basePath modelType modelId) (natRepr versionId)

/-- `FileLayoutBuilder.getVersionMediaPath` (file-layout.ts line 95). -/
def getVersionMediaPath (basePath modelType : String) (modelId versionId : Nat) : String :=
  joinPath (getVersionPath basePath modelType modelId versionId) "media"

/-- `FileLayoutBuilder.getModelApiInfoPath` (file-layout.ts line 102). -/
def getModelApiInfoPath (basePath modelType : String) (modelId : Nat) : String :=
  joinPath (getModelPath basePath modelType modelId) (getApiInfoJsonFileName modelId)

/-- `FileLayoutBuilder.getVersionApiInfoPath` (file-layout.ts line 112). -/
def getVersionApiInfoPath (basePath modelType : String) (modelId versionId : Nat) : String :=
  joinPath (getVersionPath basePath modelType modelId versionId)
    (getApiInfoJsonFileName versionId)

/-- `FileLayoutBuilder.getModelFilePath` (file-layout.ts line 122), parameterized
by the external `sanitize-basename` function. -/
def getModelFilePath (sanitize : String → String) (basePath modelType : String)
    (modelId versionId : Nat) (file : ModelFile) : String :=
  joinPath (getVersionPath basePath modelType modelId versionId)
    (natRepr file.id ++ "_" ++ sanitize file.name)

/-! Media scanner (file-layout.ts lines 156-241).  The filesystem is explicit
state: a scanned directory is an existence flag plus a `readdir` outcome, and
each directory entry carries its real on-disk size, which the scanner never
reads (it stores the placeholder `0`). -/

/-- A directory entry as returned by `readdir(..., withFileTypes)`, together
with the file's actual size on disk (available to `fs.stat`, unread by the
scanner). -/
structure Dirent where
  name : String
  isFile : Bool
  diskSize : Nat
deriving Repr, DecidableEq

deriving instance DecidableEq for Except

/-- The filesystem state of one media directory: the `pathExists` answer and
the result of `readdir` (which can throw, e.g. on permission errors). -/
structure MediaDirState where
  dirExists : Bool
  readResult : Except String (List Dirent)
deriving Repr, DecidableEq

/-- `MediaFileInfo` (file-layout.ts line 156). -/
structure MediaFileInfo where
  imageId : Nat
  filePath : String
  fileName : String
  size : Nat
deriving Repr, DecidableEq

/-- A JavaScript regex word character (`\w`, i.e. `[A-Za-z0-9_]`), the
character class underlying the `\b` assertions in
`MediaScanner.extractImageIdFromFilename`. -/
def isWordChar (c : Char) : Bool := c.isAlpha || c.isDigit || c = '_'

/-- Leftmost match of the regex `\b(\d+)\b` (file-layout.ts line 217), with
structural fuel so the function reduces by kernel computation.  `prevIsWord`
says whether the character preceding the current position is a word character
(`false` at the start of the string).  A digit run whose left boundary holds is
taken whole; if its right neighbour is a word character the match fails there
and scanning resumes after the run, exactly as the regex engine does (no
position inside the run can satisfy the opening `\b`). -/
def findDigitRunAux : Nat → Bool → List Char → Option (List Char)
  | 0, _, _ => none
  | _ + 1, _, [] => none
  | fuel + 1, prevIsWord, c :: cs =>
    if c.isDigit && !prevIsWord then
      match (cs.dropWhile (fun x => x.isDigit)).head? with
      | none => some (c :: cs.takeWhile (fun x => x.isDigit))
      | some r =>
        if isWordChar r then findDigitRunAux fuel true (cs.dropWhile (fun x => x.isDigit))
        else some (c :: cs.takeWhile (fun x => x.isDigit))
    else findDigitRunAux fuel (isWordChar c) cs

/-- Leftmost `\b(\d+)\b` match in `l`, assuming `prevIsWord` describes the
character to the left of `l`. -/
def findDigitRun (prevIsWord : Bool) (l : List Char) : Option (List Char) :=
  findDigitRunAux l.length prevIsWord l

/-- Value of a decimal digit run (`parseInt(run, 10)` on a nonempty all-digit
string, which never yields `NaN`). -/
def digitsToNat (l : List Char) : Nat :=
  l.foldl (fun acc c => acc * 10 + decDigitVal c) 0

/-- `MediaScanner.extractImageIdFromFilename` (file-layout.ts line 215).  The
`undefined`-capture and `isNaN` branches of the source are unreachable once a
match exists, because the captured group of `\b(\d+)\b` is a nonempty digit
run. -/
def extractImageIdFromFilename (filename : String) : Except String Nat :=
  match findDigitRun false filename.data with
  | none => .error ("No numeric ID found in filename: " ++ filename)
  | some run => .ok (digitsToNat run)

/-- The entry-processing loop of `MediaScanner.scanMediaDirectory`
(file-layout.ts lines 181-198): regular files whose name yields an id are
kept, with the placeholder size `0`; everything else is skipped. -/
def processMediaEntries (mediaPath : String) (entries : List Dirent) :
    List MediaFileInfo :=
  entries.filterMap (fun e =>
    if e.isFile then
      match extractImageIdFromFilename e.name with
      | .ok imageId => some ⟨imageId, joinPath mediaPath e.name, e.name, 0⟩
      | .error _ => none
    else none)

/-- `MediaScanner.sortByMediaId` (file-layout.ts line 238).  The source sorts
with the comparator `(a, b) => a.imageId - b.imageId`; ECMAScript's
`Array.prototype.sort` is specified to be stable, and a stable ascending sort
by `imageId` is exactly insertion sort under the total preorder below. -/
def sortByMediaId (files : List MediaFileInfo) : List MediaFileInfo :=
  files.insertionSort (fun a b => a.imageId ≤ b.imageId)

/-- `MediaScanner.scanMediaDirectory` (file-layout.ts line 170). -/
def scanMediaDirectory (dir : MediaDirState) (mediaPath : String) :
    Except String (List MediaFileInfo) :=
  if dir.dirExists = false then .ok []
  else
    match dir.readResult with
    | .error e => .error e
    | .ok entries => .ok (sortByMediaId (processMediaEntries mediaPath entries))

/-! Declarative characterization of the `\b(\d+)\b` match used by the scanner:
a valid run split cuts the filename into `pre ++ run ++ post` where `run` is a
nonempty digit run whose left and right neighbours are not word characters
(so the run is maximal and both `\b` assertions hold). -/

/-- The opening `\b` holds before `run` when the character to its left — the
last of `pre`, or the one described by `prevIsWord` when `pre` is empty — is
not a word character. -/
def leftFlankOK (prevIsWord : Bool) (pre : List Char) : Bool :=
  match pre.getLast? with
  | none => !prevIsWord
  | some c => !isWordChar c

/-- The closing `\b` holds after the run when the following character, if any,
is not a word character. -/
def rightFlankOK (post : List Char) : Bool :=
  match post.head? with
  | none => true
  | some c => !isWordChar c

/-- `run` is a word-boundary-delimited maximal digit run of `l` at the
position after `pre`. -/
def ValidRunSplit (prevIsWord : Bool) (l pre run post : List Char) : Prop :=
  l = pre ++ run ++ post ∧ run ≠ [] ∧ (∀ c ∈ run, c.isDigit = true) ∧
    leftFlankOK prevIsWord pre = true ∧ rightFlankOK post = true

instance (b : Bool) (l pre run post : List Char) :
    Decidable (ValidRunSplit b l pre run post) := by
  unfold ValidRunSplit
  infer_instance

/-- The claim-side notion of recovered identifier — the first maximal run of
digits appearing anywhere in the filename — written from the spec sentence,
independently of the code, for comparison with the scanner's regex. -/
def firstDigitRunAnywhere (l : List Char) : Option (List Char) :=
  match l.dropWhile (fun c => !c.isDigit) with
  | [] => none
  | c :: cs => some (c :: cs.takeWhile (fun c => c.isDigit))

/-! JavaScript `Number()` string conversion (ECMA-262 `StringNumericLiteral`),
embedded exactly: finite values are rationals, `NaN` and the infinities are
separate constructors.  Numeric whitespace trimming is modelled for the ASCII
whitespace characters; rounding to binary floating point is not modelled (the
identifiers involved are far below 2^53, where conversion is exact). -/

/-- A JavaScript number as produced by `Number(string)`. -/
inductive JsNum where
  | nan : JsNum
  | posInf : JsNum
  | negInf : JsNum
  | finite : ℚ → JsNum
deriving Repr, DecidableEq

/-- `isNaN` on the embedded JavaScript numbers. -/
def jsIsNaN : JsNum → Bool
  | .nan => true
  | _ => false

/-- Negation, for a leading `-` sign. -/
def jsNeg : JsNum → JsNum
  | .nan => .nan
  | .posInf => .negInf
  | .negInf => .posInf
  | .finite q => .finite (-q)

/-- ASCII JavaScript whitespace (`StrWhiteSpace`), the characters trimmed by
`Number()`. -/
def isJsWhitespace (c : Char) : Bool :=
  c = ' ' || c = '\t' || c = '\n' || c = '\r' || c = '\x0b' || c = '\x0c'

/-- Hexadecimal digit value. -/
def hexDigitVal? (c : Char) : Option Nat :=
  if c.isDigit then some (c.toNat - 48)
  else if 'a' ≤ c ∧ c ≤ 'f' then some (c.toNat - 87)
  else if 'A' ≤ c ∧ c ≤ 'F' then some (c.toNat - 55)
  else none

/-- Octal digit value. -/
def octDigitVal? (c : Char) : Option Nat :=
  if c.isDigit ∧ c ≤ '7' then some (c.toNat - 48) else none

/-- Binary digit value. -/
def binDigitVal? (c : Char) : Option Nat :=
  if c = '0' then some 0 else if c = '1' then some 1 else none

/-- Nonempty digit string in radix `r`, or `none`. -/
def parseRadix (r : Nat) (val : Char → Option Nat) (l : List Char) : Option Nat :=
  if l = [] then none
  else l.foldl (fun acc c => acc.bind (fun a => (val c).map (fun v => a * r + v))) (some 0)

/-- Apply an exponent part `10^ds` (divide when the exponent is negative). -/
def expApply (base : ℚ) (isNeg : Bool) (ds : List Char) : Option ℚ :=
  if ds ≠ [] ∧ ds.all (fun c => c.isDigit) then
    some (if isNeg then base / (10 : ℚ) ^ digitsToNat ds else base * (10 : ℚ) ^ digitsToNat ds)
  else none

/-- Optional `ExponentPart` after the mantissa; anything else is a parse
failure. -/
def parseExpPart (base : ℚ) : List Char → Option ℚ
  | [] => some base
  | e :: rest =>
    if e = 'e' ∨ e = 'E' then
      match rest with
      | '+' :: ds => expApply base false ds
      | '-' :: ds => expApply base true ds
      | ds => expApply base false ds
    else none

/-- `StrUnsignedDecimalLiteral` without the `Infinity` production: digits, an
optional dotted fraction, and an optional exponent; at least one digit must be
present. -/
def parseUnsignedDec (l : List Char) : Option ℚ :=
  let ip := l.takeWhile (fun c => c.isDigit)
  let r1 := l.dropWhile (fun c => c.isDigit)
  match r1 with
  | '.' :: rest =>
    let fp := rest.takeWhile (fun c => c.isDigit)
    let r2 := rest.dropWhile (fun c => c.isDigit)
    if ip = [] ∧ fp = [] then none
    else parseExpPart ((digitsToNat ip : ℚ) + (digitsToNat fp : ℚ) / (10 : ℚ) ^ fp.length) r2
  | _ =>
    if ip = [] then none
    else parseExpPart ((digitsToNat ip : ℚ)) r1

/-- `Infinity` or an unsigned decimal literal (the only productions a sign may
precede). -/
def parseUnsignedStr (l : List Char) : Option JsNum :=
  if l = ("Infinity" : String).data then some .posInf
  else (parseUnsignedDec l).map .finite

/-- `StrNumericLiteral`: a signed decimal literal or an unsigned non-decimal
(`0x`/`0o`/`0b`) integer literal. -/
def parseNumericLiteral (l : List Char) : Option JsNum :=
  match l with
  | '+' :: rest => parseUnsignedStr rest
  | '-' :: rest => (parseUnsignedStr rest).map jsNeg
  | '0' :: x :: rest =>
    if x = 'x' ∨ x = 'X' then (parseRadix 16 hexDigitVal? rest).map (fun n => .finite (n : ℚ))
    else if x = 'o' ∨ x = 'O' then (parseRadix 8 octDigitVal? rest).map (fun n => .finite (n : ℚ))
    else if x = 'b' ∨ x = 'B' then (parseRadix 2 binDigitVal? rest).map (fun n => .finite (n : ℚ))
    else parseUnsignedStr l
  | _ => parseUnsignedStr l

/-- JavaScript `Number(s)` on strings: trim whitespace; the empty remainder is
`0`; otherwise parse the numeric literal, with `NaN` on failure. -/
def jsStringToNumber (s : String) : JsNum :=
  let l := ((s.data.dropWhile isJsWhitespace).reverse.dropWhile isJsWhitespace).reverse
  if l = [] then .finite 0
  else
    match parseNumericLiteral l with
    | some j => j
    | none => .nan

/-- Scheme prefix removal for URL filename isolation: drop everything up to
and including the first `://`, when present. -/
def dropSchemeAux : List Char → Option (List Char)
  | ':' :: '/' :: '/' :: rest => some rest
  | _ :: rest => dropSchemeAux rest
  | [] => none

/-- Modelled from the spec: `extractFilenameFromUrl` of
`@up/civitai-api/v1/utils`, whose implementation is not under `src/` (only its
declarations, callers and README are).  Per spec §4.1/§4.5 it isolates the
final path segment of the URL and fails (`MalformedUrlError`) when no path
segment can be isolated: the model strips a scheme prefix up to `://` when
present, fails when the remainder contains no `/` (the URL has no path), and
otherwise returns the substring after the last `/` (possibly empty when the
URL ends in `/`). -/
def extractFilenameFromUrl (url : String) : Except String String :=
  let rest := match dropSchemeAux url.data with
    | some r => r
    | none => url.data
  if '/' ∈ rest then
    .ok ⟨(rest.reverse.takeWhile (fun c => c ≠ '/')).reverse⟩
  else
    .error ("MalformedUrlError: no path segment in URL: " ++ url)

/-- Modelled from the spec: `removeFileExtension` of `@up/civitai-api`
(implementation not under `src/`).  Per spec §4.1 it strips one trailing
dotted extension if present: everything from the last `.` on is removed; a
name without `.` is returned unchanged. -/
def removeFileExtension (fileName : String) : String :=
  if '.' ∈ fileName.data then
    ⟨((fileName.data.reverse.dropWhile (fun c => c ≠ '.')).drop 1).reverse⟩
  else fileName

/-- Embedding of the `ModelImage` entity (modelVersion.ts batch recovery);
`id` is nullable at the wire boundary. -/
structure ModelImage where
  id : Option JsNum
  url : String
  nsfwLevel : Nat
  width : Nat
  height : Nat
  hash : String
  type : String
deriving Repr, DecidableEq

/-- A reported per-item validation error (message plus offending URL, the
parts of the source's `ValidationError` context the claims speak about). -/
structure ValidationError where
  message : String
  url : String
deriving Repr, DecidableEq

/-- The per-item identifier recovery of
`createOrConnectImagesByModelIdEndpointInfo` (modelVersion.ts lines 282-312):
extract the URL's filename, strip its extension, convert with `Number()`, and
reject exactly the `NaN` outcomes. -/
def recoverImageId (url : String) : Except ValidationError JsNum :=
  match extractFilenameFromUrl url with
  | .error _ => .error ⟨"Failed to extract filename from image URL: " ++ url, url⟩
  | .ok filename =>
    if jsIsNaN (jsStringToNumber (removeFileExtension filename)) then
      .error ⟨"Invalid ID extracted from image URL: " ++ url, url⟩
    else .ok (jsStringToNumber (removeFileExtension filename))

/-- The batch loop of `createOrConnectImagesByModelIdEndpointInfo`
(modelVersion.ts lines 273-318): items with a non-null id pass through
unchanged; null-id items get their id recovered from the URL; items whose
recovery fails are skipped and reported individually.  The function is total:
no per-item failure aborts the batch. -/
def processImages : List ModelImage → List ModelImage × List ValidationError
  | [] => ([], [])
  | image :: rest =>
    let (outs, errs) := processImages rest
    match image.id with
    | some _ => (image :: outs, errs)
    | none =>
      match recoverImageId image.url with
      | .error e => (outs, e :: errs)
      | .ok idv => ({ image with id := some idv } :: outs, errs)

/-- `FileLayoutBuilder.getMediaFilePath` (file-layout.ts line 136): the media
path reuses the filename extracted from the source URL; an extraction failure
or an empty filename is an error (`mapErr` re-wraps every failure message). -/
def getMediaFilePath (basePath modelType : String) (modelId versionId : Nat)
    (image : ModelImage) : Except String String :=
  Except.mapError (fun e => "Failed to extract filename from URL: " ++ e)
    (match extractFilenameFromUrl image.url with
     | .error e => .error e
     | .ok filename =>
       if filename = "" then
         .error ("Failed to extract filename from URL: " ++ image.url)
       else
         .ok (joinPath (getVersionMediaPath basePath modelType modelId versionId) filename))

/-- `ModelVersionLayout` (file-layout.ts line 29): the version data the layout
facade needs. -/
structure ModelVersionLayout where
  id : Nat
  files : List ModelFile
  images : List ModelImage

/-- `VersionLayout.findFile` (file-layout.ts line 283). -/
def findFile (version : ModelVersionLayout) (fileId : Nat) : Except String ModelFile :=
  match version.files.find? (fun f => f.id = fileId) with
  | none => .error ("Version " ++ natRepr version.id ++ " has no file with ID: " ++ natRepr fileId)
  | some f => .ok f

/-- `VersionLayout.getFilePath` (file-layout.ts line 294). -/
def getFilePath (sanitize : String → String) (basePath modelType : String)
    (modelId : Nat) (version : ModelVersionLayout) (fileId : Nat) : Except String String :=
  match findFile version fileId with
  | .error e => .error e
  | .ok file => .ok (getModelFilePath sanitize basePath modelType modelId version.id file)

/-- The loop of `VersionLayout.checkFilesOnDisk` (file-layout.ts lines
342-352): per file, compute the expected path (aborting on a path error) and
keep the id when the existence check answers true.  `fsExists` models the
`path-exists` package, whose contract is to answer `false` (never to throw)
when the underlying stat fails. -/
def checkFilesOnDiskAux (fsExists : String → Bool) (sanitize : String → String)
    (basePath modelType : String) (modelId : Nat) (version : ModelVersionLayout) :
    List ModelFile → Except String (List Nat)
  | [] => .ok []
  | file :: rest =>
    match getFilePath sanitize basePath modelType modelId version file.id with
    | .error e => .error e
    | .ok path =>
      match checkFilesOnDiskAux fsExists sanitize basePath modelType modelId version rest with
      | .error e => .error e
      | .ok ids => .ok (if fsExists path then file.id :: ids else ids)

/-- `VersionLayout.checkFilesOnDisk` (file-layout.ts line 339). -/
def checkFilesOnDisk (fsExists : String → Bool) (sanitize : String → String)
    (basePath modelType : String) (modelId : Nat) (version : ModelVersionLayout) :
    Except String (List Nat) :=
  checkFilesOnDiskAux fsExists sanitize basePath modelType modelId version version.files

theorem decDigitsAux_eq_digits (fuel : Nat) :
    ∀ n, n ≤ fuel → decDigitsAux fuel n = Nat.digits 10 n := by
  induction fuel with
  | zero =>
    intro n hn
    interval_cases n
    simp [decDigitsAux]
  | succ fuel ih =>
    intro n hn
    by_cases h0 : n = 0
    · subst h0; simp [decDigitsAux]
    · have hlt : n / 10 < n := Nat.div_lt_self (Nat.pos_of_ne_zero h0) (by norm_num)
      have hrec := ih (n / 10) (by omega)
      rw [decDigitsAux, if_neg h0, hrec,
        @Nat.digits_def' 10 (by norm_num) n (Nat.pos_of_ne_zero h0)]

theorem decDigits_eq_digits (n : Nat) : decDigits n = Nat.digits 10 n :=
  decDigitsAux_eq_digits n n le_rfl

theorem decDigitChar_isDigit (d : Nat) : (decDigitChar d).isDigit = true := by
  rcases d with _ | _ | _ | _ | _ | _ | _ | _ | _ | _ | d <;> rfl

theorem decDigitVal_decDigitChar {d : Nat} (hd : d < 10) :
    decDigitVal (decDigitChar d) = d := by
  interval_cases d <;> rfl

theorem map_decDigitChar_inj {l1 l2 : List Nat} (h1 : ∀ d ∈ l1, d < 10)
    (h2 : ∀ d ∈ l2, d < 10) (h : l1.map decDigitChar = l2.map decDigitChar) :
    l1 = l2 := by
  induction l1 generalizing l2 with
  | nil => cases l2 <;> simp_all
  | cons a as ih =>
    cases l2 with
    | nil => simp at h
    | cons b bs =>
      simp only [List.map_cons, List.cons.injEq] at h
      obtain ⟨hab, hrest⟩ := h
      have ha : a < 10 := h1 a (by simp)
      have hb : b < 10 := h2 b (by simp)
      have hab' : a = b := by
        have := congrArg decDigitVal hab
        rwa [decDigitVal_decDigitChar ha, decDigitVal_decDigitChar hb] at this
      subst hab'
      have := ih (fun d hd => h1 d (by simp [hd])) (fun d hd => h2 d (by simp [hd])) hrest
      rw [this]

theorem mem_natRepr_isDigit {n : Nat} {c : Char} (hc : c ∈ (natRepr n).data) :
    c.isDigit = true := by
  unfold natRepr at hc
  by_cases h0 : n = 0
  · subst h0
    simp only [if_pos rfl] at hc
    have : c = '0' := by
      simpa using hc
    subst this; rfl
  · simp only [if_neg h0] at hc
    have hc' : c ∈ ((decDigits n).map decDigitChar).reverse := hc
    rw [List.mem_reverse, List.mem_map] at hc'
    obtain ⟨d, _, rfl⟩ := hc'
    exact decDigitChar_isDigit d

theorem natRepr_inj {n m : Nat} (h : natRepr n = natRepr m) : n = m := by
  unfold natRepr at h
  have hdata : ∀ {a b : List Char}, (String.mk a) = (String.mk b) → a = b := by
    intro a b hab
    injection hab
  by_cases hn : n = 0 <;> by_cases hm : m = 0
  · omega
  · exfalso
    rw [if_pos hn, if_neg hm] at h
    have h0 : ['0'] = ((decDigits m).map decDigitChar).reverse := hdata h
    have : (decDigits m).map decDigitChar = ['0'] := by
      have := congrArg List.reverse h0
      simpa using this.symm
    rcases hl : decDigits m with _ | ⟨d, ds⟩
    · rw [hl] at this; simp at this
    · rw [hl] at this
      rcases ds with _ | ⟨d2, ds2⟩
      · simp at this
        have hd10 : d < 10 := by
          have : d ∈ Nat.digits 10 m := by
            rw [← decDigits_eq_digits, hl]; simp
          exact Nat.digits_lt_base (by norm_num) this
        have hd0 : d = 0 := by
          have := congrArg decDigitVal this
          rwa [decDigitVal_decDigitChar hd10] at this
        subst hd0
        have hdig : Nat.digits 10 m = [0] := by rw [← decDigits_eq_digits, hl]
        have := congrArg (Nat.ofDigits 10) hdig
        rw [Nat.ofDigits_digits] at this
        simp [Nat.ofDigits] at this
        exact hm this
      · simp at this
  · exfalso
    rw [if_neg hn, if_pos hm] at h
    have h0 : ((decDigits n).map decDigitChar).reverse = ['0'] := hdata h
    have : (decDigits n).map decDigitChar = ['0'] := by
      have := congrArg List.reverse h0
      simpa using this
    rcases hl : decDigits n with _ | ⟨d, ds⟩
    · rw [hl] at this; simp at this
    · rw [hl] at this
      rcases ds with _ | ⟨d2, ds2⟩
      · simp at this
        have hd10 : d < 10 := by
          have : d ∈ Nat.digits 10 n := by
            rw [← decDigits_eq_digits, hl]; simp
          exact Nat.digits_lt_base (by norm_num) this
        have hd0 : d = 0 := by
          have := congrArg decDigitVal this
          rwa [decDigitVal_decDigitChar hd10] at this
        subst hd0
        have hdig : Nat.digits 10 n = [0] := by rw [← decDigits_eq_digits, hl]
        have := congrArg (Nat.ofDigits 10) hdig
        rw [Nat.ofDigits_digits] at this
        simp [Nat.ofDigits] at this
        exact hn this
      · simp at this
  · rw [if_neg hn, if_neg hm] at h
    have hrev : ((decDigits n).map decDigitChar).reverse
        = ((decDigits m).map decDigitChar).reverse := hdata h
    have hmap : (decDigits n).map decDigitChar = (decDigits m).map decDigitChar :=
      List.reverse_injective hrev
    have hlt : ∀ k : Nat, ∀ d ∈ decDigits k, d < 10 := by
      intro k d hd
      rw [decDigits_eq_digits] at hd
      exact Nat.digits_lt_base (by norm_num) hd
    have hdig : decDigits n = decDigits m :=
      map_decDigitChar_inj (hlt n) (hlt m) hmap
    rw [decDigits_eq_digits, decDigits_eq_digits] at hdig
    have := congrArg (Nat.ofDigits 10) hdig
    rwa [Nat.ofDigits_digits, Nat.ofDigits_digits] at this

theorem append_cons_sep_inj {α : Type} {c : α} :
    ∀ {l1 l2 r1 r2 : List α}, c ∉ l1 → c ∉ l2 →
      l1 ++ c :: r1 = l2 ++ c :: r2 → l1 = l2 ∧ r1 = r2 := by
  intro l1
  induction l1 with
  | nil =>
    intro l2 r1 r2 _ h2 h
    cases l2 with
    | nil => simpa using h
    | cons b bs =>
      exfalso
      simp only [List.nil_append, List.cons_append, List.cons.injEq] at h
      exact h2 (by simp [h.1])
  | cons a as ih =>
    intro l2 r1 r2 h1 h2 h
    cases l2 with
    | nil =>
      exfalso
      simp only [List.nil_append, List.cons_append, List.cons.injEq] at h
      exact h1 (by simp [h.1])
    | cons b bs =>
      simp only [List.cons_append, List.cons.injEq] at h
      obtain ⟨rfl, h⟩ := h
      have := ih (fun hm => h1 (by simp [hm])) (fun hm => h2 (by simp [hm])) h
      exact ⟨by rw [this.1], this.2⟩

theorem joinPath_data (a b : String) :
    (joinPath a b).data = a.data ++ '/' :: b.data := by
  show (a ++ "/" ++ b).data = a.data ++ '/' :: b.data
  simp [String.data_append]

theorem slash_not_mem_natRepr (n : Nat) : '/' ∉ (natRepr n).data := by
  intro h
  have := mem_natRepr_isDigit h
  exact absurd this (by decide)

theorem underscore_not_mem_natRepr (n : Nat) : '_' ∉ (natRepr n).data := by
  intro h
  have := mem_natRepr_isDigit h
  exact absurd this (by decide)

theorem getModelFilePath_data (sanitize : String → String) (basePath modelType : String)
    (modelId versionId : Nat) (file : ModelFile) :
    (getModelFilePath sanitize basePath modelType modelId versionId file).data =
      basePath.data ++ '/' :: (modelType.data ++ '/' :: ((natRepr modelId).data
        ++ '/' :: ((natRepr versionId).data
        ++ '/' :: ((natRepr file.id).data ++ '_' :: (sanitize file.name).data)))) := by
  simp [getModelFilePath, getVersionPath, getModelPath, joinPath, String.data_append]

/-- C1: the layout builder's file path determines the `(modelType, modelId,
versionId, fileId)` tuple: with a fixed base path, if two calls of
`getModelFilePath` (which composes `getVersionPath`) return the same path then
the two tuples coincide — distinct tuples never collide.  Determinism across
repeated calls is immediate because the embedded builder is a pure function of
its arguments.  The hypotheses record that model-type tags and
`sanitize-basename` outputs contain no path separator, which is what makes the
separator-interposition embedding of `path.join` faithful. -/
theorem getModelFilePath_injective_on_tuple
    (sanitize : String → String) (basePath : String)
    (t1 t2 : String) (m1 v1 m2 v2 : Nat) (f1 f2 : ModelFile)
    (ht1 : '/' ∉ t1.data) (ht2 : '/' ∉ t2.data)
    (hs1 : '/' ∉ (sanitize f1.name).data) (hs2 : '/' ∉ (sanitize f2.name).data)
    (h : getModelFilePath sanitize basePath t1 m1 v1 f1
       = getModelFilePath sanitize basePath t2 m2 v2 f2) :
    t1 = t2 ∧ m1 = m2 ∧ v1 = v2 ∧ f1.id = f2.id := by
  have hd := congrArg String.data h
  rw [getModelFilePath_data, getModelFilePath_data] at hd
  have hd1 : '/' :: (t1.data ++ '/' :: ((natRepr m1).data ++ '/' :: ((natRepr v1).data
      ++ '/' :: ((natRepr f1.id).data ++ '_' :: (sanitize f1.name).data))))
      = '/' :: (t2.data ++ '/' :: ((natRepr m2).data ++ '/' :: ((natRepr v2).data
      ++ '/' :: ((natRepr f2.id).data ++ '_' :: (sanitize f2.name).data)))) :=
    List.append_cancel_left hd
  have hd2 := List.cons_injective.eq_iff.mp hd1
  obtain ⟨hteq, hd3⟩ := append_cons_sep_inj ht1 ht2 hd2
  obtain ⟨hmeq, hd4⟩ :=
    append_cons_sep_inj (slash_not_mem_natRepr m1) (slash_not_mem_natRepr m2) hd3
  obtain ⟨hveq, hd5⟩ :=
    append_cons_sep_inj (slash_not_mem_natRepr v1) (slash_not_mem_natRepr v2) hd4
  obtain ⟨hfeq, _⟩ :=
    append_cons_sep_inj (underscore_not_mem_natRepr f1.id)
      (underscore_not_mem_natRepr f2.id) hd5
  refine ⟨?_, ?_, ?_, ?_⟩
  · exact String.ext hteq
  · exact natRepr_inj (String.ext hmeq)
  · exact natRepr_inj (String.ext hveq)
  · exact natRepr_inj (String.ext hfeq)

/-- C1 witness: the theorem applied at a concrete tuple. -/
theorem getModelFilePath_injective_on_tuple_witness :
    ("Checkpoint" : String) = "Checkpoint" ∧ (456 : Nat) = 456
      ∧ (789 : Nat) = 789 ∧ (123 : Nat) = 123 :=
  getModelFilePath_injective_on_tuple (fun s => s) "/base" "Checkpoint" "Checkpoint"
    456 789 456 789 ⟨123, 1024, "m.safetensors", "Model", "u"⟩
    ⟨123, 1024, "m.safetensors", "Model", "u"⟩
    (by decide) (by decide) (by decide) (by decide) rfl

/-- C9 counterexample: at base `/base`, model type `Checkpoint`, model id 456,
the model metadata path ends in `456.api-info.json`, not in `456.meta` as the
claim states. -/
theorem getModelApiInfoPath_meta_counterexample :
    getModelApiInfoPath "/base" "Checkpoint" 456
        = "/base/Checkpoint/456/456.api-info.json" ∧
      getModelApiInfoPath "/base" "Checkpoint" 456
        ≠ "/base/Checkpoint/456/456.meta" := by
  constructor
  · decide
  · decide

/-- C9 amended: for every base directory, model type, model id and version id
the model metadata path equals
`{base}/{modelType}/{modelId}/{modelId}.api-info.json` and the version
metadata path equals
`{base}/{modelType}/{modelId}/{versionId}/{versionId}.api-info.json` —
the layout of the spec with `.api-info.json` in place of `.meta`. -/
theorem apiInfoPaths_shape (basePath modelType : String) (modelId versionId : Nat) :
    getModelApiInfoPath basePath modelType modelId
      = basePath ++ "/" ++ modelType ++ "/" ++ natRepr modelId ++ "/"
        ++ natRepr modelId ++ ".api-info.json" ∧
    getVersionApiInfoPath basePath modelType modelId versionId
      = basePath ++ "/" ++ modelType ++ "/" ++ natRepr modelId ++ "/"
        ++ natRepr versionId ++ "/" ++ natRepr versionId ++ ".api-info.json" := by
  constructor <;>
    simp [getModelApiInfoPath, getVersionApiInfoPath, getApiInfoJsonFileName,
      getVersionPath, getModelPath, joinPath, String.append_assoc]

/-- C8: scanning a media directory whose path does not exist on disk succeeds
with the empty result list instead of an error. -/
theorem scanMediaDirectory_nonexistent_ok (dir : MediaDirState) (mediaPath : String)
    (h : dir.dirExists = false) : scanMediaDirectory dir mediaPath = .ok [] := by
  simp [scanMediaDirectory, h]

/-- C8 witness: a concrete missing directory (with a pending read error that is
never consulted) scans to the empty list. -/
theorem scanMediaDirectory_nonexistent_ok_witness :
    scanMediaDirectory ⟨false, .error "ENOENT"⟩ "/m" = .ok [] :=
  scanMediaDirectory_nonexistent_ok ⟨false, .error "ENOENT"⟩ "/m" rfl

/-- C10: every entry of a successful scan reports `size = 0`, whatever the
sizes of the files on disk are: the scanner stores a placeholder and never
consults file statistics. -/
theorem scanMediaDirectory_size_placeholder (dir : MediaDirState) (mediaPath : String)
    (out : List MediaFileInfo) (h : scanMediaDirectory dir mediaPath = .ok out) :
    ∀ r ∈ out, r.size = 0 := by
  intro r hr
  unfold scanMediaDirectory at h
  by_cases hex : dir.dirExists = false
  · rw [if_pos hex] at h
    injection h with h
    subst h
    simp at hr
  · rw [if_neg hex] at h
    rcases hread : dir.readResult with e | entries
    · rw [hread] at h; exact absurd h (by simp)
    · rw [hread] at h
      injection h with h
      subst h
      have hmem : r ∈ processMediaEntries mediaPath entries := by
        simp only [sortByMediaId] at hr
        exact ((List.perm_insertionSort (fun a b : MediaFileInfo => a.imageId ≤ b.imageId)
          (processMediaEntries mediaPath entries)).mem_iff).mp hr
      rw [processMediaEntries, List.mem_filterMap] at hmem
      obtain ⟨e, _, he⟩ := hmem
      by_cases hf : e.isFile
      · rw [if_pos hf] at he
        rcases hex2 : extractImageIdFromFilename e.name with err | imageId
        · rw [hex2] at he; simp at he
        · rw [hex2] at he
          injection he with he
          subst he
          rfl
      · rw [if_neg hf] at he; simp at he

/-- C10 witness: a directory holding `12.jpg` of real size 12345 bytes scans to
an entry carrying size 0. -/
theorem scanMediaDirectory_size_placeholder_witness :
    (⟨12, "/m/12.jpg", "12.jpg", 0⟩ : MediaFileInfo).size = 0 :=
  scanMediaDirectory_size_placeholder ⟨true, .ok [⟨"12.jpg", true, 12345⟩]⟩ "/m"
    [⟨12, "/m/12.jpg", "12.jpg", 0⟩] (by decide)
    ⟨12, "/m/12.jpg", "12.jpg", 0⟩ (by decide)

/-- C7 counterexample: two listings of the same directory contents (the files
`12.jpg` and `12.png`, whose recovered identifiers are both 12) in different
orders scan to different ordered results, because the stable sort keeps the
listing order among equal identifiers.  The claim that the order is determined
purely by the numeric value is therefore false. -/
theorem scanMediaDirectory_listing_order_matters :
    (([⟨"12.jpg", true, 0⟩, ⟨"12.png", true, 0⟩] : List Dirent).Perm
        [⟨"12.png", true, 0⟩, ⟨"12.jpg", true, 0⟩]) ∧
      scanMediaDirectory ⟨true, .ok [⟨"12.jpg", true, 0⟩, ⟨"12.png", true, 0⟩]⟩ "/m"
        ≠ scanMediaDirectory ⟨true, .ok [⟨"12.png", true, 0⟩, ⟨"12.jpg", true, 0⟩]⟩ "/m" := by
  constructor
  · decide
  · decide

/-- C7 amended: a successful scan is sorted ascending by the recovered
identifier, and whenever the recovered identifiers are pairwise distinct the
scan result is independent of the directory-listing order (two scans of the
same contents agree); with duplicate identifiers the stable sort preserves the
listing order among equals. -/
theorem scanMediaDirectory_sorted_and_order_independent
    (mediaPath : String) (l1 l2 : List Dirent) (hperm : l1.Perm l2)
    (hdistinct : (processMediaEntries mediaPath l1).Pairwise
      (fun a b => a.imageId ≠ b.imageId)) :
    scanMediaDirectory ⟨true, .ok l1⟩ mediaPath
        = scanMediaDirectory ⟨true, .ok l2⟩ mediaPath
      ∧ ∀ (dir : MediaDirState) (out : List MediaFileInfo),
          scanMediaDirectory dir mediaPath = .ok out →
          out.Pairwise (fun a b => a.imageId ≤ b.imageId) := by
  haveI htot : IsTotal MediaFileInfo (fun a b => a.imageId ≤ b.imageId) :=
    ⟨fun a b => Nat.le_total a.imageId b.imageId⟩
  haveI htrans : IsTrans MediaFileInfo (fun a b => a.imageId ≤ b.imageId) :=
    ⟨fun _ _ _ hab hbc => Nat.le_trans hab hbc⟩
  constructor
  · show Except.ok (sortByMediaId (processMediaEntries mediaPath l1))
      = Except.ok (sortByMediaId (processMediaEntries mediaPath l2))
    have hpermProc : (processMediaEntries mediaPath l1).Perm
        (processMediaEntries mediaPath l2) := hperm.filterMap _
    have hsort1 := List.sorted_insertionSort (fun a b : MediaFileInfo => a.imageId ≤ b.imageId)
      (processMediaEntries mediaPath l1)
    have hsort2 := List.sorted_insertionSort (fun a b : MediaFileInfo => a.imageId ≤ b.imageId)
      (processMediaEntries mediaPath l2)
    have hs : (sortByMediaId (processMediaEntries mediaPath l1)).Perm
        (sortByMediaId (processMediaEntries mediaPath l2)) := by
      simpa [sortByMediaId] using
        ((List.perm_insertionSort (fun a b : MediaFileInfo => a.imageId ≤ b.imageId)
            (processMediaEntries mediaPath l1)).trans
          (hpermProc.trans (List.perm_insertionSort
            (fun a b : MediaFileInfo => a.imageId ≤ b.imageId)
            (processMediaEntries mediaPath l2)).symm))
    have hd1 : (sortByMediaId (processMediaEntries mediaPath l1)).Pairwise
        (fun a b => a.imageId ≠ b.imageId) := by
      simp only [sortByMediaId]
      exact ((List.perm_insertionSort (fun a b : MediaFileInfo => a.imageId ≤ b.imageId)
        (processMediaEntries mediaPath l1)).pairwise_iff (fun h hk => h hk.symm)).mpr hdistinct
    have hd2 : (sortByMediaId (processMediaEntries mediaPath l2)).Pairwise
        (fun a b => a.imageId ≠ b.imageId) :=
      (hs.pairwise_iff (fun h hk => h hk.symm)).mp hd1
    have hstrict1 : (sortByMediaId (processMediaEntries mediaPath l1)).Pairwise
        (fun a b => a.imageId < b.imageId) := by
      have := List.Pairwise.and (by simpa [sortByMediaId] using hsort1) hd1
      exact this.imp (fun hab => Nat.lt_of_le_of_ne hab.1 hab.2)
    have hstrict2 : (sortByMediaId (processMediaEntries mediaPath l2)).Pairwise
        (fun a b => a.imageId < b.imageId) := by
      have := List.Pairwise.and (by simpa [sortByMediaId] using hsort2) hd2
      exact this.imp (fun hab => Nat.lt_of_le_of_ne hab.1 hab.2)
    haveI hanti : IsAntisymm MediaFileInfo (fun a b => a.imageId < b.imageId) :=
      ⟨fun _ _ hab hba => absurd hba (Nat.lt_asymm hab)⟩
    have := List.eq_of_perm_of_sorted hs hstrict1 hstrict2
    rw [this]
  · intro dir out h
    unfold scanMediaDirectory at h
    by_cases hex : dir.dirExists = false
    · rw [if_pos hex] at h
      injection h with h
      subst h
      simp
    · rw [if_neg hex] at h
      rcases hread : dir.readResult with e | entries
      · rw [hread] at h; exact absurd h (by simp)
      · rw [hread] at h
        injection h with h
        subst h
        simpa [sortByMediaId] using
          List.sorted_insertionSort (fun a b : MediaFileInfo => a.imageId ≤ b.imageId)
            (processMediaEntries mediaPath entries)

/-- C7 witness: the order-independence theorem applied to the listings
`[111.jpg, preview-222.png]` and `[preview-222.png, 111.jpg]`. -/
theorem scanMediaDirectory_sorted_and_order_independent_witness :
    scanMediaDirectory ⟨true, .ok [⟨"111.jpg", true, 0⟩, ⟨"preview-222.png", true, 0⟩]⟩ "/m"
      = scanMediaDirectory ⟨true, .ok [⟨"preview-222.png", true, 0⟩, ⟨"111.jpg", true, 0⟩]⟩ "/m" :=
  (scanMediaDirectory_sorted_and_order_independent "/m"
    [⟨"111.jpg", true, 0⟩, ⟨"preview-222.png", true, 0⟩]
    [⟨"preview-222.png", true, 0⟩, ⟨"111.jpg", true, 0⟩]
    (by decide) (by decide)).1

theorem isWordChar_of_isDigit {c : Char} (h : c.isDigit = true) :
    isWordChar c = true := by
  simp [isWordChar, h]

theorem dropWhile_head?_not {p : Char → Bool} :
    ∀ {l : List Char} {a : Char}, (List.dropWhile p l).head? = some a → p a = false := by
  intro l
  induction l with
  | nil => intro a h; simp at h
  | cons c cs ih =>
    intro a h
    by_cases hc : p c
    · rw [List.dropWhile_cons_of_pos hc] at h
      exact ih h
    · rw [List.dropWhile_cons_of_neg hc] at h
      simp only [List.head?_cons, Option.some.injEq] at h
      subst h
      exact Bool.of_not_eq_true hc

theorem leftFlankOK_cons (b : Bool) (c : Char) (ps : List Char) :
    leftFlankOK b (c :: ps) = leftFlankOK (isWordChar c) ps := by
  cases ps with
  | nil => simp [leftFlankOK, List.getLast?]
  | cons p ps' =>
    have hx : (p :: ps').getLast? = some ((p :: ps').getLast (by simp)) :=
      List.getLast?_eq_getLast _ (by simp)
    simp [leftFlankOK, List.getLast?_cons_cons, hx]

theorem validRunSplit_nil_elim {b : Bool} {pre run post : List Char}
    (h : ValidRunSplit b [] pre run post) : False := by
  obtain ⟨hl, hne, -, -, -⟩ := h
  have := hl.symm
  rw [List.append_assoc] at this
  rcases List.append_eq_nil.mp this with ⟨-, h2⟩
  exact hne (List.append_eq_nil.mp h2).1

theorem validRunSplit_cons_not_start {prevW : Bool} {c : Char}
    {cs pre run post : List Char} (hc : ¬(c.isDigit = true ∧ prevW = false)) :
    ValidRunSplit prevW (c :: cs) pre run post ↔
      ∃ pre1, pre = c :: pre1 ∧ ValidRunSplit (isWordChar c) cs pre1 run post := by
  constructor
  · rintro ⟨hl, hne, hdigs, hleft, hright⟩
    cases pre with
    | nil =>
      exfalso
      obtain ⟨rc, rcs, rfl⟩ := List.exists_cons_of_ne_nil hne
      simp only [List.nil_append, List.cons_append, List.cons.injEq] at hl
      obtain ⟨rfl, -⟩ := hl
      exact hc ⟨hdigs c (by simp), by simpa [leftFlankOK] using hleft⟩
    | cons p ps =>
      simp only [List.cons_append, List.cons.injEq] at hl
      obtain ⟨rfl, hl⟩ := hl
      exact ⟨ps, rfl, hl, hne, hdigs, by rwa [leftFlankOK_cons] at hleft, hright⟩
  · rintro ⟨pre1, rfl, hl, hne, hdigs, hleft, hright⟩
    exact ⟨by simp [hl], hne, hdigs, by rwa [leftFlankOK_cons], hright⟩

theorem validRunSplit_append_left {b : Bool} {d pre1 run post : List Char}
    (w : List Char) (hv : ValidRunSplit true d pre1 run post) :
    ValidRunSplit b (w ++ d) (w ++ pre1) run post := by
  obtain ⟨hl, hne, hdigs, hleft, hright⟩ := hv
  have hpre1 : pre1 ≠ [] := by
    intro h
    subst h
    simp [leftFlankOK] at hleft
  refine ⟨by simp [hl], hne, hdigs, ?_, hright⟩
  rcases List.exists_cons_of_ne_nil hpre1 with ⟨x, xs, rfl⟩
  unfold leftFlankOK at hleft ⊢
  rw [List.getLast?_append_of_ne_nil w (by simp)]
  exact hleft

theorem take_append_le {α : Type} (n : Nat) (l1 l2 : List α) (h : n ≤ l1.length) :
    (l1 ++ l2).take n = l1.take n := by
  have h2 : (l1.take n).length = n := by
    simp [List.length_take, Nat.min_eq_left h]
  calc (l1 ++ l2).take n
      = ((l1.take n ++ l1.drop n) ++ l2).take n := by rw [List.take_append_drop]
    _ = (l1.take n ++ (l1.drop n ++ l2)).take n := by rw [List.append_assoc]
    _ = l1.take n := List.take_left' h2

/-- When the digit run `run0` opening `l` is followed by a word character `r`
(so the closing `\b` fails on it), no valid run split of `l` can start at or
before the end of `run0`: every valid split factors through the remainder
`d`. -/
theorem validRunSplit_blocked_general {prevW : Bool} {r : Char}
    {l run0 d pre run post : List Char}
    (hl0 : l = run0 ++ d)
    (hrun0_digits : ∀ x ∈ run0, x.isDigit = true)
    (hr : d.head? = some r)
    (hrd : r.isDigit = false)
    (hrw : isWordChar r = true)
    (hv : ValidRunSplit prevW l pre run post) :
    ∃ pre1, pre = run0 ++ pre1 ∧ ValidRunSplit true d pre1 run post := by
  obtain ⟨hl, hne, hdigs, hleft, hright⟩ := hv
  rw [hl0] at hl
  have hgt : run0.length < pre.length := by
    by_contra hle0
    push_neg at hle0
    have hpre_take : pre = run0.take pre.length := by
      calc pre = (pre ++ (run ++ post)).take pre.length := (List.take_left pre _).symm
        _ = (pre ++ run ++ post).take pre.length := by rw [List.append_assoc]
        _ = (run0 ++ d).take pre.length := by rw [← hl]
        _ = run0.take pre.length := take_append_le _ _ _ hle0
    have hpre_digits : ∀ x ∈ pre, x.isDigit = true := by
      intro x hx
      rw [hpre_take] at hx
      exact hrun0_digits x (List.take_subset _ _ hx)
    rcases hpre : pre with _ | ⟨p, ps⟩
    · subst hpre
      simp only [List.nil_append] at hl
      by_cases hrr : run.length ≤ run0.length
      · have hrun_take : run = run0.take run.length := by
          calc run = (run ++ post).take run.length := (List.take_left run post).symm
            _ = (run0 ++ d).take run.length := by rw [← hl]
            _ = run0.take run.length := take_append_le _ _ _ hrr
        have hpost : post = run0.drop run.length ++ d := by
          refine @List.append_cancel_left _ run _ _ ?_
          calc run ++ post = run0 ++ d := hl.symm
            _ = (run0.take run.length ++ run0.drop run.length) ++ d := by
                rw [List.take_append_drop]
            _ = run ++ (run0.drop run.length ++ d) := by
                rw [← hrun_take, List.append_assoc]
        rcases hdrop : run0.drop run.length with _ | ⟨m, ms⟩
        · rw [hdrop] at hpost
          simp only [List.nil_append] at hpost
          unfold rightFlankOK at hright
          rw [hpost, hr] at hright
          simp [hrw] at hright
        · have hm : m ∈ run0 := List.drop_subset _ _ (by rw [hdrop]; simp)
          have hmw := isWordChar_of_isDigit (hrun0_digits m hm)
          unfold rightFlankOK at hright
          rw [hpost, hdrop] at hright
          simp [hmw] at hright
      · push_neg at hrr
        have hrun0_take : run0 = run.take run0.length := by
          calc run0 = (run0 ++ d).take run0.length := (List.take_left run0 d).symm
            _ = (run ++ post).take run0.length := by rw [hl]
            _ = run.take run0.length := take_append_le _ _ _ (Nat.le_of_lt hrr)
        have hd_eq : d = run.drop run0.length ++ post := by
          refine @List.append_cancel_left _ run0 _ _ ?_
          calc run0 ++ d = run ++ post := hl
            _ = (run.take run0.length ++ run.drop run0.length) ++ post := by
                rw [List.take_append_drop]
            _ = run0 ++ (run.drop run0.length ++ post) := by
                rw [← hrun0_take, List.append_assoc]
        have hdropne : run.drop run0.length ≠ [] := by
          intro hnil
          have := List.drop_eq_nil_iff.mp hnil
          omega
        rcases List.exists_cons_of_ne_nil hdropne with ⟨x, xs, hx⟩
        have hxr : x = r := by
          rw [hx] at hd_eq
          rw [hd_eq] at hr
          simpa using hr
        have hxrun : x ∈ run := List.drop_subset _ _ (by rw [hx]; simp)
        have hxd := hdigs x hxrun
        rw [hxr, hrd] at hxd
        exact Bool.false_ne_true hxd
    · subst hpre
      have hlast := List.getLast?_eq_getLast (p :: ps) (by simp)
      unfold leftFlankOK at hleft
      rw [hlast] at hleft
      have hmem : (p :: ps).getLast (by simp) ∈ (p :: ps) := List.getLast_mem _
      have hdigLast : ((p :: ps).getLast (by simp)).isDigit = true := hpre_digits _ hmem
      simp [isWordChar_of_isDigit hdigLast] at hleft
  have hlen0 : run0.length ≤ pre.length := Nat.le_of_lt hgt
  have hpre_take2 : pre.take run0.length = run0 := by
    calc pre.take run0.length
        = (pre ++ (run ++ post)).take run0.length := (take_append_le _ _ _ hlen0).symm
      _ = (pre ++ run ++ post).take run0.length := by rw [List.append_assoc]
      _ = (run0 ++ d).take run0.length := by rw [← hl]
      _ = run0 := List.take_left run0 d
  have hpre_split : pre = run0 ++ pre.drop run0.length := by
    conv_lhs => rw [← List.take_append_drop run0.length pre]
    rw [hpre_take2]
  have hpre1_ne : pre.drop run0.length ≠ [] := by
    intro hnil
    have := List.drop_eq_nil_iff.mp hnil
    omega
  refine ⟨pre.drop run0.length, hpre_split, ?_, hne, hdigs, ?_, hright⟩
  · refine @List.append_cancel_left _ run0 _ _ ?_
    calc run0 ++ d = pre ++ run ++ post := hl
      _ = (run0 ++ pre.drop run0.length) ++ run ++ post := by rw [← hpre_split]
      _ = run0 ++ (pre.drop run0.length ++ run ++ post) := by
          rw [List.append_assoc, List.append_assoc, List.append_assoc]
  · have hlast_eq : pre.getLast? = (pre.drop run0.length).getLast? := by
      conv_lhs => rw [hpre_split]
      exact List.getLast?_append_of_ne_nil run0 hpre1_ne
    unfold leftFlankOK at hleft ⊢
    rcases hl? : (pre.drop run0.length).getLast? with _ | y
    · exact absurd (List.getLast?_eq_none_iff.mp hl?) hpre1_ne
    · rw [hlast_eq, hl?] at hleft
      exact hleft

theorem length_dropWhile_le (p : Char → Bool) (l : List Char) :
    (l.dropWhile p).length ≤ l.length := by
  have := congrArg List.length (List.takeWhile_append_dropWhile p l)
  simp only [List.length_append] at this
  omega

theorem validRunSplit_start_direct {prevW : Bool} {c : Char} {cs : List Char}
    (hdig : c.isDigit = true) (hpw : prevW = false)
    (hflank : rightFlankOK (cs.dropWhile (fun x => x.isDigit)) = true) :
    ValidRunSplit prevW (c :: cs) [] (c :: cs.takeWhile (fun x => x.isDigit))
      (cs.dropWhile (fun x => x.isDigit)) := by
  refine ⟨?_, by simp, ?_, ?_, hflank⟩
  · simp [List.takeWhile_append_dropWhile]
  · intro x hx
    rcases List.mem_cons.mp hx with rfl | hx
    · exact hdig
    · exact List.mem_takeWhile_imp hx
  · simp [leftFlankOK, hpw]

/-- Every successful `\b(\d+)\b` search finds a valid run split, and the one it
finds is leftmost among all valid run splits. -/
theorem findDigitRunAux_some_valid :
    ∀ fuel (prevW : Bool) (l run : List Char), l.length ≤ fuel →
      findDigitRunAux fuel prevW l = some run →
      ∃ pre post, ValidRunSplit prevW l pre run post ∧
        ∀ pre2 run2 post2, ValidRunSplit prevW l pre2 run2 post2 →
          pre.length ≤ pre2.length := by
  intro fuel
  induction fuel with
  | zero =>
    intro prevW l run _ h
    simp [findDigitRunAux] at h
  | succ fuel ih =>
    intro prevW l run hlen h
    cases l with
    | nil => simp [findDigitRunAux] at h
    | cons c cs =>
      simp only [findDigitRunAux] at h
      by_cases hc : (c.isDigit && !prevW) = true
      · rw [if_pos hc] at h
        have hdig : c.isDigit = true := by
          have := hc
          simp only [Bool.and_eq_true] at this
          exact this.1
        have hpw : prevW = false := by
          have := hc
          simp only [Bool.and_eq_true] at this
          simpa using this.2
        rcases hd : (cs.dropWhile (fun x => x.isDigit)).head? with _ | r
        · rw [hd] at h
          injection h with h
          subst h
          refine ⟨[], cs.dropWhile (fun x => x.isDigit),
            validRunSplit_start_direct hdig hpw (by simp [rightFlankOK, hd]), ?_⟩
          intro pre2 run2 post2 _
          simp
        · rw [hd] at h
          replace h :
              (if isWordChar r = true then
                findDigitRunAux fuel true (cs.dropWhile (fun x => x.isDigit))
              else some (c :: cs.takeWhile (fun x => x.isDigit))) = some run := h
          by_cases hw : isWordChar r = true
          · rw [if_pos hw] at h
            have hdlen : (cs.dropWhile (fun x => x.isDigit)).length ≤ fuel := by
              have h1 := length_dropWhile_le (fun x => x.isDigit) cs
              simp only [List.length_cons] at hlen
              omega
            obtain ⟨pre1, post1, hv1, hmin1⟩ := ih true _ run hdlen h
            have hl0 : c :: cs = (c :: cs.takeWhile (fun x => x.isDigit))
                ++ cs.dropWhile (fun x => x.isDigit) := by
              simp [List.takeWhile_append_dropWhile]
            have hrd : r.isDigit = false := dropWhile_head?_not hd
            have hrun0_digits :
                ∀ x ∈ c :: cs.takeWhile (fun x => x.isDigit), x.isDigit = true := by
              intro x hx
              rcases List.mem_cons.mp hx with rfl | hx
              · exact hdig
              · exact List.mem_takeWhile_imp hx
            refine ⟨(c :: cs.takeWhile (fun x => x.isDigit)) ++ pre1, post1, ?_, ?_⟩
            · rw [hl0]
              exact validRunSplit_append_left _ hv1
            · intro pre2 run2 post2 hv2
              rw [hl0] at hv2
              obtain ⟨pre2', rfl, hv2'⟩ :=
                validRunSplit_blocked_general rfl hrun0_digits hd hrd hw hv2
              have := hmin1 pre2' run2 post2 hv2'
              simp only [List.length_append]
              omega
          · rw [if_neg hw] at h
            injection h with h
            subst h
            refine ⟨[], cs.dropWhile (fun x => x.isDigit),
              validRunSplit_start_direct hdig hpw (by simp [rightFlankOK, hd, hw]), ?_⟩
            intro pre2 run2 post2 _
            simp
      · rw [if_neg hc] at h
        have hcnot : ¬(c.isDigit = true ∧ prevW = false) := by
          rintro ⟨h1, h2⟩
          exact hc (by simp [h1, h2])
        have hcslen : cs.length ≤ fuel := by
          simp only [List.length_cons] at hlen
          omega
        obtain ⟨pre1, post1, hv1, hmin1⟩ := ih (isWordChar c) cs run hcslen h
        refine ⟨c :: pre1, post1,
          (validRunSplit_cons_not_start hcnot).mpr ⟨pre1, rfl, hv1⟩, ?_⟩
        intro pre2 run2 post2 hv2
        obtain ⟨pre2', rfl, hv2'⟩ := (validRunSplit_cons_not_start hcnot).mp hv2
        have := hmin1 pre2' run2 post2 hv2'
        simp only [List.length_cons]
        omega

/-- When the `\b(\d+)\b` search fails there is no valid run split at all. -/
theorem findDigitRunAux_none_no_valid :
    ∀ fuel (prevW : Bool) (l : List Char), l.length ≤ fuel →
      findDigitRunAux fuel prevW l = none →
      ∀ pre run post, ¬ ValidRunSplit prevW l pre run post := by
  intro fuel
  induction fuel with
  | zero =>
    intro prevW l hlen _ pre run post hv
    have hnil : l = [] := List.eq_nil_of_length_eq_zero (Nat.le_zero.mp hlen)
    subst hnil
    exact validRunSplit_nil_elim hv
  | succ fuel ih =>
    intro prevW l hlen h pre run post hv
    cases l with
    | nil => exact validRunSplit_nil_elim hv
    | cons c cs =>
      simp only [findDigitRunAux] at h
      by_cases hc : (c.isDigit && !prevW) = true
      · rw [if_pos hc] at h
        have hdig : c.isDigit = true := by
          have := hc
          simp only [Bool.and_eq_true] at this
          exact this.1
        rcases hd : (cs.dropWhile (fun x => x.isDigit)).head? with _ | r
        · rw [hd] at h
          exact absurd h (by simp)
        · rw [hd] at h
          replace h :
              (if isWordChar r = true then
                findDigitRunAux fuel true (cs.dropWhile (fun x => x.isDigit))
              else some (c :: cs.takeWhile (fun x => x.isDigit))) = none := h
          by_cases hw : isWordChar r = true
          · rw [if_pos hw] at h
            have hdlen : (cs.dropWhile (fun x => x.isDigit)).length ≤ fuel := by
              have h1 := length_dropWhile_le (fun x => x.isDigit) cs
              simp only [List.length_cons] at hlen
              omega
            have hl0 : c :: cs = (c :: cs.takeWhile (fun x => x.isDigit))
                ++ cs.dropWhile (fun x => x.isDigit) := by
              simp [List.takeWhile_append_dropWhile]
            have hrd : r.isDigit = false := dropWhile_head?_not hd
            have hrun0_digits :
                ∀ x ∈ c :: cs.takeWhile (fun x => x.isDigit), x.isDigit = true := by
              intro x hx
              rcases List.mem_cons.mp hx with rfl | hx
              · exact hdig
              · exact List.mem_takeWhile_imp hx
            rw [hl0] at hv
            obtain ⟨pre1, -, hv'⟩ :=
              validRunSplit_blocked_general rfl hrun0_digits hd hrd hw hv
            exact ih true _ hdlen h pre1 run post hv'
          · rw [if_neg hw] at h
            exact absurd h (by simp)
      · rw [if_neg hc] at h
        have hcnot : ¬(c.isDigit = true ∧ prevW = false) := by
          rintro ⟨h1, h2⟩
          exact hc (by simp [h1, h2])
        have hcslen : cs.length ≤ fuel := by
          simp only [List.length_cons] at hlen
          omega
        obtain ⟨pre1, -, hv'⟩ := (validRunSplit_cons_not_start hcnot).mp hv
        exact ih (isWordChar c) cs hcslen h pre1 run post hv'

theorem findDigitRun_some_valid {prevW : Bool} {l run : List Char}
    (h : findDigitRun prevW l = some run) :
    ∃ pre post, ValidRunSplit prevW l pre run post ∧
      ∀ pre2 run2 post2, ValidRunSplit prevW l pre2 run2 post2 →
        pre.length ≤ pre2.length :=
  findDigitRunAux_some_valid l.length prevW l run Nat.le.refl h

theorem findDigitRun_none_no_valid {prevW : Bool} {l : List Char}
    (h : findDigitRun prevW l = none) :
    ∀ pre run post, ¬ ValidRunSplit prevW l pre run post :=
  findDigitRunAux_none_no_valid l.length prevW l Nat.le.refl h

/-- C2 counterexample: the regular file `a111.jpg` has `111` as the first
maximal digit run appearing in its name, but the scanner skips it entirely:
the regex `\b(\d+)\b` requires a word boundary before the run and `a` is a
word character.  The claim that every file's first digit run is recovered (and
only digit-free names are skipped) is therefore false. -/
theorem scanMediaDirectory_skips_digit_run_counterexample :
    firstDigitRunAnywhere ("a111.jpg" : String).data = some ['1', '1', '1'] ∧
      digitsToNat ['1', '1', '1'] = 111 ∧
      extractImageIdFromFilename ("a111.jpg")
        = .error ("No numeric ID found in filename: a111.jpg") ∧
      scanMediaDirectory ⟨true, .ok [⟨"a111.jpg", true, 0⟩]⟩ "/m" = .ok [] := by
  refine ⟨by decide, by decide, by decide, by decide⟩

/-- C2 amended: for every regular file in a successfully scanned media
directory, the scanner recovers as identifier the value of the first maximal
digit run of the filename that is delimited by word boundaries (not adjacent
to an ASCII letter, digit or underscore); files whose name has no such
word-boundary-delimited digit run — even ones containing digit runs — are
silently skipped rather than failing the scan. -/
theorem scanMediaDirectory_word_boundary_recovery
    (mediaPath : String) (entries : List Dirent) (out : List MediaFileInfo)
    (h : scanMediaDirectory ⟨true, .ok entries⟩ mediaPath = .ok out) :
    ∀ e ∈ entries, e.isFile = true →
      ((∃ pre run post, ValidRunSplit false e.name.data pre run post) →
        ∃ r ∈ out, r.fileName = e.name ∧
          ∃ pre run post, ValidRunSplit false e.name.data pre run post ∧
            r.imageId = digitsToNat run ∧
            ∀ pre2 run2 post2, ValidRunSplit false e.name.data pre2 run2 post2 →
              pre.length ≤ pre2.length) ∧
      ((∀ pre run post, ¬ ValidRunSplit false e.name.data pre run post) →
        ∀ r ∈ out, r.fileName ≠ e.name) := by
  have hout : out = sortByMediaId (processMediaEntries mediaPath entries) := by
    simp only [scanMediaDirectory] at h
    simp at h
    exact h.symm
  subst hout
  intro e he hf
  constructor
  · rintro ⟨pre, run, post, hv⟩
    rcases hfind : findDigitRun false e.name.data with _ | rstar
    · exact absurd hv (findDigitRun_none_no_valid hfind pre run post)
    · obtain ⟨ps, qs, hvs, hmins⟩ := findDigitRun_some_valid hfind
      refine ⟨⟨digitsToNat rstar, joinPath mediaPath e.name, e.name, 0⟩, ?_, rfl,
        ps, rstar, qs, hvs, rfl, hmins⟩
      have hmem : (⟨digitsToNat rstar, joinPath mediaPath e.name, e.name, 0⟩ : MediaFileInfo)
          ∈ processMediaEntries mediaPath entries := by
        rw [processMediaEntries, List.mem_filterMap]
        refine ⟨e, he, ?_⟩
        simp [hf, extractImageIdFromFilename, hfind]
      simp only [sortByMediaId]
      exact ((List.perm_insertionSort (fun a b : MediaFileInfo => a.imageId ≤ b.imageId)
        (processMediaEntries mediaPath entries)).mem_iff).mpr hmem
  · intro hnone r hr hname
    have hmem : r ∈ processMediaEntries mediaPath entries := by
      simp only [sortByMediaId] at hr
      exact ((List.perm_insertionSort (fun a b : MediaFileInfo => a.imageId ≤ b.imageId)
        (processMediaEntries mediaPath entries)).mem_iff).mp hr
    rw [processMediaEntries, List.mem_filterMap] at hmem
    obtain ⟨e2, he2, hfe2⟩ := hmem
    by_cases hf2 : e2.isFile = true
    · rcases hex : extractImageIdFromFilename e2.name with er | idv
      · simp [hf2, hex] at hfe2
      · simp only [hf2, if_true, hex] at hfe2
        injection hfe2 with hfe2
        have hname2 : e2.name = e.name := by
          rw [← hname, ← hfe2]
        rcases hfind2 : findDigitRun false e2.name.data with _ | run2
        · rw [extractImageIdFromFilename, hfind2] at hex
          exact absurd hex (by simp)
        · obtain ⟨ps, qs, hvs, -⟩ := findDigitRun_some_valid hfind2
          rw [hname2] at hvs
          exact hnone ps run2 qs hvs
    · simp [hf2] at hfe2

/-- C2 amended witness: scanning a directory holding `preview-222.png` (whose
run `222` is word-boundary-delimited) yields an entry for that file. -/
theorem scanMediaDirectory_word_boundary_recovery_witness :
    (⟨222, "/m/preview-222.png", "preview-222.png", 0⟩ : MediaFileInfo).fileName
      = "preview-222.png" := by
  have h := scanMediaDirectory_word_boundary_recovery "/m"
    [⟨"preview-222.png", true, 0⟩]
    [⟨222, "/m/preview-222.png", "preview-222.png", 0⟩] (by decide)
  have h2 := (h ⟨"preview-222.png", true, 0⟩ (by decide) rfl).1
    ⟨("preview-" : String).data, ['2', '2', '2'], (".png" : String).data, by decide⟩
  obtain ⟨r, hr, hrname, -⟩ := h2
  have hr1 : r = ⟨222, "/m/preview-222.png", "preview-222.png", 0⟩ := by
    simpa using hr
  rw [← hr1]
  exact hrname

theorem takeWhile_eq_self_of_all {p : Char → Bool} :
    ∀ {l : List Char}, (∀ c ∈ l, p c = true) → l.takeWhile p = l := by
  intro l
  induction l with
  | nil => intro _; rfl
  | cons c cs ih =>
    intro h
    rw [List.takeWhile_cons_of_pos (h c (by simp)), ih (fun x hx => h x (by simp [hx]))]

theorem dropWhile_eq_nil_of_all {p : Char → Bool} :
    ∀ {l : List Char}, (∀ c ∈ l, p c = true) → l.dropWhile p = [] := by
  intro l
  induction l with
  | nil => intro _; rfl
  | cons c cs ih =>
    intro h
    rw [List.dropWhile_cons_of_pos (h c (by simp))]
    exact ih (fun x hx => h x (by simp [hx]))

theorem not_ws_of_digit {c : Char} (h : c.isDigit = true) : isJsWhitespace c = false := by
  unfold isJsWhitespace
  by_cases h1 : c = ' '
  · subst h1; exact absurd h (by decide)
  by_cases h2 : c = '\t'
  · subst h2; exact absurd h (by decide)
  by_cases h3 : c = '\n'
  · subst h3; exact absurd h (by decide)
  by_cases h4 : c = '\r'
  · subst h4; exact absurd h (by decide)
  by_cases h5 : c = '\x0b'
  · subst h5; exact absurd h (by decide)
  by_cases h6 : c = '\x0c'
  · subst h6; exact absurd h (by decide)
  simp [h1, h2, h3, h4, h5, h6]

theorem parseUnsignedDec_digits {l : List Char} (hne : l ≠ [])
    (hdig : ∀ c ∈ l, c.isDigit = true) :
    parseUnsignedDec l = some ((digitsToNat l : ℚ)) := by
  have ht : l.takeWhile (fun c => c.isDigit) = l := takeWhile_eq_self_of_all hdig
  have hd : l.dropWhile (fun c => c.isDigit) = [] := dropWhile_eq_nil_of_all hdig
  simp [parseUnsignedDec, ht, hd, hne, parseExpPart]

theorem parseUnsignedStr_digits {l : List Char} (hne : l ≠ [])
    (hdig : ∀ c ∈ l, c.isDigit = true) :
    parseUnsignedStr l = some (.finite ((digitsToNat l : ℚ))) := by
  have hni : l ≠ ("Infinity" : String).data := by
    intro hI
    have := hdig 'I' (by rw [hI]; decide)
    exact absurd this (by decide)
  rw [parseUnsignedStr, if_neg hni, parseUnsignedDec_digits hne hdig]
  rfl

theorem parseNumericLiteral_digits {l : List Char} (hne : l ≠ [])
    (hdig : ∀ c ∈ l, c.isDigit = true) :
    parseNumericLiteral l = some (.finite ((digitsToNat l : ℚ))) := by
  unfold parseNumericLiteral
  split
  · exact absurd (hdig '+' (by simp)) (by decide)
  · exact absurd (hdig '-' (by simp)) (by decide)
  · rename_i x rest
    have hx : x.isDigit = true := hdig x (by simp)
    have hx1 : x ≠ 'x' := by rintro rfl; exact absurd hx (by decide)
    have hx2 : x ≠ 'X' := by rintro rfl; exact absurd hx (by decide)
    have hx3 : x ≠ 'o' := by rintro rfl; exact absurd hx (by decide)
    have hx4 : x ≠ 'O' := by rintro rfl; exact absurd hx (by decide)
    have hx5 : x ≠ 'b' := by rintro rfl; exact absurd hx (by decide)
    have hx6 : x ≠ 'B' := by rintro rfl; exact absurd hx (by decide)
    rw [if_neg (by simp [hx1, hx2]), if_neg (by simp [hx3, hx4]), if_neg (by simp [hx5, hx6])]
    exact parseUnsignedStr_digits hne hdig
  · exact parseUnsignedStr_digits hne hdig

theorem jsStringToNumber_digits {l : List Char} (hne : l ≠ [])
    (hdig : ∀ c ∈ l, c.isDigit = true) :
    jsStringToNumber ⟨l⟩ = .finite ((digitsToNat l : ℚ)) := by
  obtain ⟨c, cs, rfl⟩ := List.exists_cons_of_ne_nil hne
  have hd1 : (c :: cs).dropWhile isJsWhitespace = c :: cs :=
    List.dropWhile_cons_of_neg (by simp [not_ws_of_digit (hdig c (by simp))])
  have hrevne : (c :: cs).reverse ≠ [] := by simp
  obtain ⟨d, ds, hrev⟩ := List.exists_cons_of_ne_nil hrevne
  have hdmem : d ∈ c :: cs := by
    rw [← List.mem_reverse, hrev]
    simp
  have hd2 : ((c :: cs).reverse).dropWhile isJsWhitespace = (c :: cs).reverse := by
    rw [hrev]
    exact List.dropWhile_cons_of_neg (by simp [not_ws_of_digit (hdig d hdmem)])
  have hdata : (String.mk (c :: cs)).data = c :: cs := rfl
  rw [jsStringToNumber]
  rw [hdata, hd1, hd2, List.reverse_reverse]
  rw [if_neg (by simp), parseNumericLiteral_digits hne hdig]

/-- C3 counterexample: the trailing segment `0x1A.jpeg` strips to `0x1A`,
which is not a base-10 integer (it contains the non-digit characters `x` and
`A`), yet recovery accepts it with value 26 because JavaScript `Number()`
parses it as hexadecimal; likewise the segment `.jpeg` strips to the empty
string, which `Number()` converts to 0 instead of failing. -/
theorem recoverImageId_non_decimal_counterexample :
    extractFilenameFromUrl ("https://host/a/0x1A.jpeg") = .ok ("0x1A.jpeg") ∧
      removeFileExtension ("0x1A.jpeg") = "0x1A" ∧
      (∃ c ∈ ("0x1A" : String).data, c.isDigit = false) ∧
      recoverImageId ("https://host/a/0x1A.jpeg") = .ok (.finite 26) ∧
      removeFileExtension (".jpeg") = "" ∧
      recoverImageId ("https://host/a/.jpeg") = .ok (.finite 0) := by
  refine ⟨by decide, by decide, ⟨'x', by decide, by decide⟩, by decide, by decide, by decide⟩

/-- C3 amended: media identifier recovery takes the final URL path segment,
strips one trailing dotted extension, and converts the remainder with
JavaScript `Number()`: every all-digit remainder yields exactly that integer,
and an item is rejected precisely when no filename can be isolated or when
`Number()` yields `NaN` — which accepts some remainders that are not base-10
integers (empty string, hexadecimal, decimal and exponent forms) instead of
rejecting them. -/
theorem recoverImageId_amended (url : String) :
    (∀ seg, extractFilenameFromUrl url = .ok seg →
      (removeFileExtension seg).data ≠ [] →
      (∀ c ∈ (removeFileExtension seg).data, c.isDigit = true) →
      recoverImageId url
        = .ok (.finite ((digitsToNat (removeFileExtension seg).data : ℚ)))) ∧
    ((∃ e, recoverImageId url = .error e) ↔
      (∃ e, extractFilenameFromUrl url = .error e) ∨
        (∃ seg, extractFilenameFromUrl url = .ok seg ∧
          jsIsNaN (jsStringToNumber (removeFileExtension seg)) = true)) := by
  constructor
  · intro seg hext hne hdig
    have hjs : jsStringToNumber (removeFileExtension seg)
        = .finite ((digitsToNat (removeFileExtension seg).data : ℚ)) := by
      have := jsStringToNumber_digits hne hdig
      simpa using this
    unfold recoverImageId
    rw [hext]
    simp [hjs, jsIsNaN]
  · rcases hext : extractFilenameFromUrl url with e | seg
    · simp [recoverImageId, hext]
    · by_cases hnan : jsIsNaN (jsStringToNumber (removeFileExtension seg)) = true
      · simp [recoverImageId, hext, hnan]
      · simp [recoverImageId, hext, hnan]

/-- C3 amended witness: the README example URL recovers 1743606. -/
theorem recoverImageId_amended_witness :
    recoverImageId ("https://image.civitai.com/xG/width=1024/1743606.jpeg")
      = .ok (.finite 1743606) :=
  (recoverImageId_amended ("https://image.civitai.com/xG/width=1024/1743606.jpeg")).1
    "1743606.jpeg" (by decide) (by decide) (by decide)

theorem processImages_append (xs ys : List ModelImage) :
    processImages (xs ++ ys)
      = ((processImages xs).1 ++ (processImages ys).1,
         (processImages xs).2 ++ (processImages ys).2) := by
  induction xs with
  | nil => simp [processImages]
  | cons x xs ih =>
    cases hx : x.id with
    | none =>
      cases hr : recoverImageId x.url with
      | error e => simp [processImages, ih, hx, hr]
      | ok v => simp [processImages, ih, hx, hr]
    | some v => simp [processImages, ih, hx]

theorem mem_processImages_of_id_some :
    ∀ (images : List ModelImage) (img : ModelImage), img ∈ images → img.id ≠ none →
      img ∈ (processImages images).1 := by
  intro images
  induction images with
  | nil => intro img h; simp at h
  | cons a rest ih =>
    intro img hmem hid
    rcases List.mem_cons.mp hmem with rfl | hmem2
    · rcases hx : img.id with _ | v
      · exact absurd hx hid
      · simp [processImages, hx]
    · have hmemout := ih img hmem2 hid
      rcases hx : a.id with _ | v
      · rcases hr : recoverImageId a.url with e | idv
        · simp [processImages, hx, hr, hmemout]
        · simp [processImages, hx, hr, hmemout]
      · simp [processImages, hx, hmemout]

/-- C4: in the batch recovery, an item that already carries a non-null id
appears in the output unchanged; an item whose recovery fails is excluded and
reported by exactly one error entry in its position; and the outputs computed
for the sibling items on either side are preserved untouched (the batch as a
whole still succeeds — `processImages` is total). -/
theorem processImages_batch_isolation (xs ys : List ModelImage) (img : ModelImage)
    (e : ValidationError) (hid : img.id = none)
    (hrec : recoverImageId img.url = .error e) :
    (processImages (xs ++ img :: ys)).1
        = (processImages xs).1 ++ (processImages ys).1 ∧
      (processImages (xs ++ img :: ys)).2
        = (processImages xs).2 ++ e :: (processImages ys).2 ∧
      ∀ im2 ∈ xs ++ img :: ys, im2.id ≠ none →
        im2 ∈ (processImages (xs ++ img :: ys)).1 := by
  have hmid : processImages (img :: ys)
      = ((processImages ys).1, e :: (processImages ys).2) := by
    simp [processImages, hid, hrec]
  have happ := processImages_append xs (img :: ys)
  rw [hmid] at happ
  exact ⟨by rw [happ], by rw [happ],
    fun im2 hmem hid2 => mem_processImages_of_id_some _ im2 hmem hid2⟩

/-- C4 witness: a failing middle item (URL without a path) is dropped and the
two healthy siblings survive. -/
theorem processImages_batch_isolation_witness :
    (processImages
        [⟨some (.finite 1), "https://h/a/1.jpg", 1, 1, 1, "h1", "image"⟩,
         ⟨none, "https://host", 1, 1, 1, "h2", "image"⟩,
         ⟨some (.finite 3), "https://h/a/3.jpg", 1, 1, 1, "h3", "image"⟩]).1
      = (processImages
          [⟨some (.finite 1), "https://h/a/1.jpg", 1, 1, 1, "h1", "image"⟩]).1
        ++ (processImages
            [⟨some (.finite 3), "https://h/a/3.jpg", 1, 1, 1, "h3", "image"⟩]).1 :=
  (processImages_batch_isolation
    [⟨some (.finite 1), "https://h/a/1.jpg", 1, 1, 1, "h1", "image"⟩]
    [⟨some (.finite 3), "https://h/a/3.jpg", 1, 1, 1, "h3", "image"⟩]
    ⟨none, "https://host", 1, 1, 1, "h2", "image"⟩
    ⟨"Failed to extract filename from image URL: https://host", "https://host"⟩
    rfl (by decide)).1

/-- C6: the media path computation fails exactly when the source URL carries
no isolable filename (extraction fails or yields the empty string), the
failure propagates as an error result, and on success the path ends in
exactly the extracted filename — never a synthesized one. -/
theorem getMediaFilePath_filename_faithful (basePath modelType : String)
    (modelId versionId : Nat) (image : ModelImage) :
    ((∃ e, getMediaFilePath basePath modelType modelId versionId image = .error e) ↔
      (∃ e, extractFilenameFromUrl image.url = .error e) ∨
        extractFilenameFromUrl image.url = .ok "") ∧
    (∀ f, extractFilenameFromUrl image.url = .ok f → f ≠ "" →
      getMediaFilePath basePath modelType modelId versionId image
        = .ok (joinPath (getVersionMediaPath basePath modelType modelId versionId) f)) := by
  constructor
  · rcases hext : extractFilenameFromUrl image.url with e | f
    · simp [getMediaFilePath, hext, Except.mapError]
    · by_cases hf : f = ""
      · subst hf
        simp [getMediaFilePath, hext, Except.mapError]
      · simp [getMediaFilePath, hext, hf, Except.mapError]
  · intro f hext hf
    simp [getMediaFilePath, hext, hf, Except.mapError]

/-- C6 witness: a URL with filename `456.jpeg` maps into the version's media
directory under exactly that name. -/
theorem getMediaFilePath_filename_faithful_witness :
    getMediaFilePath "/b" "Checkpoint" 1 2
        ⟨none, "https://h/a/456.jpeg", 1, 1, 1, "h", "image"⟩
      = .ok ("/b/Checkpoint/1/2/media/456.jpeg") :=
  (getMediaFilePath_filename_faithful "/b" "Checkpoint" 1 2
    ⟨none, "https://h/a/456.jpeg", 1, 1, 1, "h", "image"⟩).2
    "456.jpeg" (by decide) (by decide)

theorem find?_eq_self_of_pairwise_ne {files : List ModelFile}
    (hd : files.Pairwise (fun a b => a.id ≠ b.id)) :
    ∀ {f}, f ∈ files → files.find? (fun x => x.id = f.id) = some f := by
  induction files with
  | nil => intro f h; simp at h
  | cons g gs ih =>
    intro f hf
    rcases List.pairwise_cons.mp hd with ⟨hg, htail⟩
    rcases List.mem_cons.mp hf with rfl | hf2
    · rw [List.find?_cons_of_pos _ (by simp)]
    · rw [List.find?_cons_of_neg _ (by simp [hg f hf2])]
      exact ih htail hf2

theorem checkFilesOnDiskAux_eq (fsExists : String → Bool) (sanitize : String → String)
    (basePath modelType : String) (modelId : Nat) (version : ModelVersionLayout) :
    ∀ (l : List ModelFile),
      (∀ f ∈ l, version.files.find? (fun x => x.id = f.id) = some f) →
      checkFilesOnDiskAux fsExists sanitize basePath modelType modelId version l
        = .ok ((l.filter (fun f =>
            fsExists (getModelFilePath sanitize basePath modelType modelId version.id f))).map
              (fun f => f.id)) := by
  intro l
  induction l with
  | nil => intro _; rfl
  | cons file rest ih =>
    intro hfind
    have hf := hfind file (by simp)
    have hrest := ih (fun f hf2 => hfind f (by simp [hf2]))
    simp only [checkFilesOnDiskAux, getFilePath, findFile, hf, hrest]
    by_cases hex : fsExists (getModelFilePath sanitize basePath modelType modelId version.id file)
      <;> simp [hex, List.filter_cons]

/-- C5: when the version's file identifiers are distinct (the data model's
uniqueness invariant), `checkFilesOnDisk` returns `ok` of exactly the subset
of file identifiers whose computed path the existence check confirms, in file
order; the check never aborts, because the embedded `path-exists` answers
`false` instead of throwing when an individual stat fails. -/
theorem checkFilesOnDisk_exact (fsExists : String → Bool) (sanitize : String → String)
    (basePath modelType : String) (modelId : Nat) (version : ModelVersionLayout)
    (hdistinct : version.files.Pairwise (fun a b => a.id ≠ b.id)) :
    checkFilesOnDisk fsExists sanitize basePath modelType modelId version
      = .ok ((version.files.filter (fun f =>
          fsExists (getModelFilePath sanitize basePath modelType modelId version.id f))).map
            (fun f => f.id)) :=
  checkFilesOnDiskAux_eq fsExists sanitize basePath modelType modelId version
    version.files (fun _ hf => find?_eq_self_of_pairwise_ne hdistinct hf)

/-- C5 witness: with one of two files present on disk, exactly its identifier
is reported. -/
theorem checkFilesOnDisk_exact_witness :
    checkFilesOnDisk
        (fun p => p = getModelFilePath (fun s => s) "/b" "Checkpoint" 1 2
          ⟨3, 10, "a.safetensors", "Model", "u"⟩)
        (fun s => s) "/b" "Checkpoint" 1
        ⟨2, [⟨3, 10, "a.safetensors", "Model", "u"⟩, ⟨4, 10, "b.safetensors", "Model", "u"⟩], []⟩
      = .ok [3] :=
  checkFilesOnDisk_exact
    (fun p => p = getModelFilePath (fun s => s) "/b" "Checkpoint" 1 2
      ⟨3, 10, "a.safetensors", "Model", "u"⟩)
    (fun s => s) "/b" "Checkpoint" 1
    ⟨2, [⟨3, 10, "a.safetensors", "Model", "u"⟩, ⟨4, 10, "b.safetensors", "Model", "u"⟩], []⟩
    (by decide)

end Ebox
